import Mathlib

/-!
Shallow embedding of `distance_vector_routing.py`: a simulation of the
Distance Vector Routing protocol.  Routers own a neighbor-cost map and a
routing table; a `Network` owns the routers and drives synchronous
relaxation rounds until no table changes (convergence) or an iteration cap
is hit.

Python `dict`s are modelled as insertion-ordered association lists
(`lookup` reads the binding of a key, `setKey` is `d[k] = v`).  Link costs
are Python floats in the source; the embedding uses integers (`ℤ`), which
carry exactly the ordered additive comparisons the algorithm performs and
cover every cost the repository's driver uses.  The
presentation layer (`networkx` graph drawing, `print`, `time.sleep`) is
dropped; the terminal status that `simulate` prints is reified as a
`Status` value so the observable outcome can be stated.
-/

set_option maxHeartbeats 1600000

namespace DVR

/-- Router identifiers: the Python source uses strings for router names. -/
abbrev RId := String

/-- A routing-table entry `(cost, next_hop)` for one destination. -/
abbrev Entry := ℤ × RId

/-- A Python `dict` keyed by router ids, as an insertion-ordered association list. -/
abbrev AList (α : Type) := List (RId × α)

/-- Dictionary read `d[k]`: first binding of the key (Python dict keys are unique). -/
def lookup {α : Type} (k : RId) : AList α → Option α
  | [] => none
  | (a, b) :: t => if k = a then some b else lookup k t

/-- Dictionary write `d[k] = v`: overwrite the existing binding in place,
or append a fresh binding at the end, exactly as Python dict assignment does. -/
def setKey {α : Type} (k : RId) (v : α) : AList α → AList α
  | [] => [(k, v)]
  | (a, b) :: t => if k = a then (a, v) :: t else (a, b) :: setKey k v t

/-- A routing table: destination id maps to `(cost, next hop)`. -/
abbrev Table := AList Entry

/-- Python `Router.__init__`: a name, a neighbor-cost dict and a routing-table dict,
both initially empty. -/
structure Router where
  name : RId
  neighbors : AList ℤ
  routing_table : Table
  deriving DecidableEq, Repr

/-- Python `Router(name)`: both dictionaries start empty. -/
def mkRouter (name : RId) : Router := ⟨name, [], []⟩

/-- Python `Router.add_neighbor`: record the link cost, seed the routing
table with the direct neighbor, and (re)assert the self route `(0, self)`. -/
def Router.add_neighbor (r : Router) (neighbor_name : RId) (cost : ℤ) : Router :=
  { r with
    neighbors := setKey neighbor_name cost r.neighbors
    routing_table :=
      setKey r.name (0, r.name) (setKey neighbor_name (cost, neighbor_name) r.routing_table) }

/-- Python `Router.get_routing_table`. -/
def Router.get_routing_table (r : Router) : Table := r.routing_table

/-- One iteration of the loop body of `Router.update_routing_table`: given
the cost to the advertising neighbor and one advertised `(dest, (dest_cost, _))`
pair, either write the improved entry `(new_cost, neighbor_name)` (new
destination, or strictly cheaper) and report a change, or leave the table as is. -/
def relaxCore (cost_to_neighbor : ℤ) (neighbor_name : RId) (t : Table)
    (p : RId × Entry) : Table × Bool :=
  let new_cost := cost_to_neighbor + p.2.1
  match lookup p.1 t with
  | none => (setKey p.1 (new_cost, neighbor_name) t, true)
  | some e =>
    if new_cost < e.1 then (setKey p.1 (new_cost, neighbor_name) t, true)
    else (t, false)

/-- Threads a state-and-flag step through a fold, OR-accumulating the
`modified`/`changes` flag exactly as the Python loops do. -/
def foldStep {σ α : Type} (g : σ → α → σ × Bool) (acc : σ × Bool) (x : α) : σ × Bool :=
  ((g acc.1 x).1, acc.2 || (g acc.1 x).2)

/-- Python `Router.update_routing_table`: Bellman-Ford relaxation of this router's
table against a neighbor's advertised table.  Reading
`self.neighbors[neighbor_name]` raises `KeyError` when the id is not a
neighbor, modelled by `none`.  Returns the updated router and the
`modified` flag. -/
def Router.update_routing_table (r : Router) (neighbor_name : RId) (neighbor_table : Table) :
    Option (Router × Bool) :=
  (lookup neighbor_name r.neighbors).map fun cost_to_neighbor =>
    let res := neighbor_table.foldl (foldStep (relaxCore cost_to_neighbor neighbor_name))
      (r.routing_table, false)
    ({ r with routing_table := res.1 }, res.2)

/-- Python `Network.__init__`: the router dict.  The `networkx` graph kept alongside
is display-only and carries no routing state, so it is not modelled. -/
structure Network where
  routers : AList Router
  deriving DecidableEq, Repr

/-- Python `Network()`. -/
def emptyNetwork : Network := ⟨[]⟩

/-- Python `Network.add_router`: store a fresh empty router under the name,
silently replacing any router already there. -/
def Network.add_router (net : Network) (name : RId) : Network :=
  ⟨setKey name (mkRouter name) net.routers⟩

/-- Python `Network.add_link`: `routers[router1].add_neighbor(router2, cost)` then
`routers[router2].add_neighbor(router1, cost)`.  A missing `router1` raises
`KeyError` before any mutation; a missing `router2` raises after `router1`
was already mutated.  The Boolean records whether the call ran to completion,
and the returned network holds whatever mutations had been applied. -/
def Network.add_link (net : Network) (router1 router2 : RId) (cost : ℤ) : Network × Bool :=
  match lookup router1 net.routers with
  | none => (net, false)
  | some r1 =>
    let net1 : Network := ⟨setKey router1 (r1.add_neighbor router2 cost) net.routers⟩
    match lookup router2 net1.routers with
    | none => (net1, false)
    | some r2 => (⟨setKey router2 (r2.add_neighbor router1 cost) net1.routers⟩, true)

/-- One `(router, neighbor)` step of a simulation round: the router re-reads
its own live state, takes the neighbor's *current* routing table (the
`deepcopy` snapshot is taken at the moment of use) and relaxes.  The
`KeyError` cases (router or neighbor id absent) leave the state unchanged;
they cannot arise in the driver's iteration. -/
def relaxOne (net : Network) (rid nid : RId) : Network × Bool :=
  match lookup rid net.routers with
  | none => (net, false)
  | some cur =>
    match lookup nid net.routers with
    | none => (net, false)
    | some nb =>
      match cur.update_routing_table nid nb.routing_table with
      | none => (net, false)
      | some (cur', m) => (⟨setKey rid cur' net.routers⟩, m)

/-- The per-router body of a round: relax the router against each of its
neighbors in insertion order, OR-ing the change flags.  The neighbor list is
fixed for the whole round (no `add_neighbor` runs during simulation). -/
def processRouter (net : Network) (rid : RId) : Network × Bool :=
  match lookup rid net.routers with
  | none => (net, false)
  | some r =>
    r.neighbors.foldl (foldStep fun net' p => relaxOne net' rid p.1) (net, false)

/-- One full round of `Network.simulate`'s `while` loop: every router, in the
router dict's insertion order, relaxes against every neighbor.  Returns the
new network and the round's `changes` flag. -/
def run_round (net : Network) : Network × Bool :=
  (net.routers.map Prod.fst).foldl (foldStep processRouter) (net, false)

/-- The terminal outcome `Network.simulate` reports on the console:
`CONVERGED` ("La rete è convergente!") or `EXHAUSTED` (the
max-iterations warning). -/
inductive Status where
  | CONVERGED : Status
  | EXHAUSTED : Status
  deriving DecidableEq, Repr

/-- Python `Network.simulate(max_iterations)`: run rounds until one produces no
changes (converged) or the iteration budget is spent.  Produces the final
network, the number of executed rounds (the Python `iteration` counter),
and the reported terminal status.  The Python function itself prints these
and returns `None`; see `simulateReturnValue`. -/
def Network.simulate (net : Network) : Nat → Network × Nat × Status
  | 0 => (net, 0, Status.EXHAUSTED)
  | fuel + 1 =>
    let r := run_round net
    if r.2 then
      let s := Network.simulate r.1 fuel
      (s.1, s.2.1 + 1, s.2.2)
    else
      (r.1, 1, Status.CONVERGED)

/-- The value the Python `simulate` method actually hands back to its caller:
the method body has no `return` statement, so the caller receives `None`,
never a status or an iteration count. -/
def simulateReturnValue (_net : Network) (_max_iterations : Nat) : Option (Status × Nat) :=
  none

/-- The network state after `k` full rounds. -/
def netAfter (net : Network) (k : Nat) : Network :=
  (fun n => (run_round n).1)^[k] net

/-- Cost of one direct link `u → v` of the topology, read off the owner's
neighbor dict. -/
def edgeCost (net : Network) (u v : RId) : Option ℤ :=
  match lookup u net.routers with
  | none => none
  | some r => lookup v r.neighbors

/-- Total cost of the walk that starts at `u` and visits the listed routers
in order, `none` if some hop is not a link of the topology. -/
def pathCost (net : Network) (u : RId) : List RId → Option ℤ
  | [] => some 0
  | v :: l =>
    match edgeCost net u v with
    | none => none
    | some w =>
      match pathCost net v l with
      | none => none
      | some c => some (w + c)

/-- The endpoint of the walk that starts at `u` and visits the listed routers. -/
def pathTarget (u : RId) : List RId → RId
  | [] => u
  | v :: l => pathTarget v l

/-- Destination `d` can be reached from `u` by a walk of total cost `c`. -/
def Reaches (net : Network) (u d : RId) (c : ℤ) : Prop :=
  ∃ l, pathTarget u l = d ∧ pathCost net u l = some c

/-- Cost `c` is the true shortest-path cost from `u` to `d`: some walk realizes it
and no walk beats it.  This is the value an independent single-source
shortest-path computation (Dijkstra from `u` on the link topology) returns. -/
def IsShortestCost (net : Network) (u d : RId) (c : ℤ) : Prop :=
  Reaches net u d c ∧ ∀ c', Reaches net u d c' → c ≤ c'

/-- The fixed example topology built by `main()`: routers A–F and the nine
weighted bidirectional links, added in source order. -/
def exampleNetwork : Network :=
  let n0 := (((((emptyNetwork.add_router "A").add_router "B").add_router
    "C").add_router "D").add_router "E").add_router "F"
  let n1 := (n0.add_link "A" "B" 1).1
  let n2 := (n1.add_link "A" "F" 3).1
  let n3 := (n2.add_link "B" "C" 3).1
  let n4 := (n3.add_link "B" "F" 1).1
  let n5 := (n4.add_link "B" "E" 5).1
  let n6 := (n5.add_link "C" "D" 2).1
  let n7 := (n6.add_link "D" "E" 1).1
  let n8 := (n7.add_link "E" "F" 2).1
  (n8.add_link "D" "F" 6).1

/-- A two-router network with a single link of cost 2. -/
def netAB : Network :=
  (((emptyNetwork.add_router "A").add_router "B").add_link "A" "B" 2).1

/-- A network holding a single isolated router. -/
def netSolo : Network := emptyNetwork.add_router "A"

/-- Four routers where A is processed first in a round and learns D through C,
after which B (processed second) reads A's already-improved table. -/
def net9 : Network :=
  let n0 := (((emptyNetwork.add_router "A").add_router "B").add_router
    "C").add_router "D"
  let n1 := (n0.add_link "C" "D" 1).1
  let n2 := (n1.add_link "A" "C" 1).1
  (n2.add_link "A" "B" 1).1

/-! ### Association-list (Python dict) lemmas -/

/-- The keys of an association list are pairwise distinct (true of every
Python dict, and of every list this program builds through `setKey`). -/
abbrev keysNodup {α : Type} (l : AList α) : Prop := (l.map Prod.fst).Nodup

theorem lookup_setKey_self {α : Type} (k : RId) (v : α) (l : AList α) :
    lookup k (setKey k v l) = some v := by
  induction l with
  | nil => simp [setKey, lookup]
  | cons p t ih =>
    obtain ⟨a, b⟩ := p
    by_cases h : k = a <;> simp [setKey, lookup, h, ih]

theorem lookup_setKey_ne {α : Type} {d k : RId} (h : d ≠ k) (v : α) (l : AList α) :
    lookup d (setKey k v l) = lookup d l := by
  induction l with
  | nil => simp [setKey, lookup, h]
  | cons p t ih =>
    obtain ⟨a, b⟩ := p
    by_cases hka : k = a
    · subst hka
      simp [setKey, lookup, h]
    · by_cases hda : d = a <;> simp [setKey, lookup, hka, hda, ih]

theorem setKey_eq_self {α : Type} {k : RId} {v : α} {l : AList α}
    (h : lookup k l = some v) : setKey k v l = l := by
  induction l with
  | nil => simp [lookup] at h
  | cons p t ih =>
    obtain ⟨a, b⟩ := p
    by_cases hka : k = a
    · subst hka
      simp [lookup] at h
      simp [setKey, h]
    · simp [lookup, hka] at h
      simp [setKey, hka, ih h]

theorem mem_of_lookup {α : Type} {k : RId} {v : α} {l : AList α}
    (h : lookup k l = some v) : (k, v) ∈ l := by
  induction l with
  | nil => simp [lookup] at h
  | cons p t ih =>
    obtain ⟨a, b⟩ := p
    by_cases hka : k = a
    · subst hka
      simp [lookup] at h
      simp [h]
    · simp [lookup, hka] at h
      simp [ih h]

theorem key_mem_of_mem {α : Type} {p : RId × α} {l : AList α} (h : p ∈ l) :
    p.1 ∈ l.map Prod.fst :=
  List.mem_map_of_mem Prod.fst h

theorem lookup_of_mem_nodup {α : Type} {k : RId} {v : α} {l : AList α}
    (hn : keysNodup l) (h : (k, v) ∈ l) : lookup k l = some v := by
  induction l with
  | nil => simp at h
  | cons p t ih =>
    obtain ⟨a, b⟩ := p
    rcases List.mem_cons.mp h with h1 | h1
    · injection h1 with ha hb
      subst ha
      subst hb
      simp [lookup]
    · have hk : k ∈ t.map Prod.fst := key_mem_of_mem h1
      have hka : k ≠ a := by
        rintro rfl
        exact (List.nodup_cons.mp hn).1 hk
      have ht : keysNodup t := (List.nodup_cons.mp hn).2
      simp [lookup, hka, ih ht h1]

theorem lookup_isSome_of_mem {α : Type} {p : RId × α} {l : AList α} (h : p ∈ l) :
    ∃ w, lookup p.1 l = some w := by
  induction l with
  | nil => simp at h
  | cons q t ih =>
    obtain ⟨a, b⟩ := q
    rcases List.mem_cons.mp h with h1 | h1
    · subst h1
      exact ⟨b, by simp [lookup]⟩
    · by_cases hka : p.1 = a
      · exact ⟨b, by simp [lookup, hka]⟩
      · obtain ⟨w, hw⟩ := ih h1
        exact ⟨w, by simp [lookup, hka, hw]⟩

theorem mem_keys_setKey {α : Type} {x k : RId} {v : α} {l : AList α} :
    x ∈ (setKey k v l).map Prod.fst ↔ x = k ∨ x ∈ l.map Prod.fst := by
  induction l with
  | nil => simp [setKey]
  | cons p t ih =>
    obtain ⟨a, b⟩ := p
    by_cases hka : k = a
    · subst hka
      by_cases hxk : x = k <;> simp [setKey, hxk]
    · simp only [setKey, if_neg hka, List.map_cons, List.mem_cons, ih]
      tauto

theorem keysNodup_setKey {α : Type} {k : RId} {v : α} {l : AList α}
    (h : keysNodup l) : keysNodup (setKey k v l) := by
  induction l with
  | nil => simp [keysNodup, setKey]
  | cons p t ih =>
    obtain ⟨a, b⟩ := p
    obtain ⟨ha, ht⟩ := List.nodup_cons.mp h
    by_cases hka : k = a
    · rw [show setKey k v ((a, b) :: t) = (a, v) :: t from by simp [setKey, hka]]
      unfold keysNodup at h ⊢
      simpa using h
    · rw [show setKey k v ((a, b) :: t) = (a, b) :: setKey k v t from by simp [setKey, hka]]
      unfold keysNodup
      rw [List.map_cons]
      refine List.nodup_cons.mpr ⟨?_, ih ht⟩
      intro hmem
      rcases mem_keys_setKey.mp hmem with h1 | h1
      · exact hka h1.symm
      · exact ha h1

theorem mem_setKey {α : Type} {p : RId × α} {k : RId} {v : α} {l : AList α}
    (h : p ∈ setKey k v l) : p = (k, v) ∨ p ∈ l := by
  induction l with
  | nil => simpa [setKey] using h
  | cons q t ih =>
    obtain ⟨a, b⟩ := q
    by_cases hka : k = a
    · subst hka
      rcases List.mem_cons.mp (by simpa [setKey] using h) with h1 | h1
      · exact Or.inl (by simpa using h1)
      · exact Or.inr (List.mem_cons.mpr (Or.inr h1))
    · rcases List.mem_cons.mp (by simpa [setKey, hka] using h) with h1 | h1
      · exact Or.inr (List.mem_cons.mpr (Or.inl h1))
      · rcases ih h1 with h2 | h2
        · exact Or.inl h2
        · exact Or.inr (List.mem_cons.mpr (Or.inr h2))

theorem lookup_setKey_isSome {α : Type} {d k : RId} {v : α} {l : AList α}
    (h : ∃ w, lookup d l = some w) : ∃ w, lookup d (setKey k v l) = some w := by
  by_cases hdk : d = k
  · subst hdk
    exact ⟨v, lookup_setKey_self d v l⟩
  · rw [lookup_setKey_ne hdk]
    exact h

/-! ### Generic lemmas about the flag-accumulating folds -/

theorem foldl_preserve {σ α : Type} (P : σ → Prop) :
    ∀ (l : List α) (f : σ → α → σ), (∀ s x, x ∈ l → P s → P (f s x)) →
      ∀ s, P s → P (l.foldl f s) := by
  intro l
  induction l with
  | nil => intro f _ s hs; exact hs
  | cons x t ih =>
    intro f hstep s hs
    exact ih f (fun s' y hy => hstep s' y (List.mem_cons.mpr (Or.inr hy)))
      (f s x) (hstep s x (List.mem_cons.mpr (Or.inl rfl)) hs)

theorem foldStep_flag_true {σ α : Type} (g : σ → α → σ × Bool) :
    ∀ (l : List α) (s : σ), (l.foldl (foldStep g) (s, true)).2 = true := by
  intro l
  induction l with
  | nil => intro s; rfl
  | cons x t ih =>
    intro s
    have : foldStep g (s, true) x = ((g s x).1, true) := by
      simp [foldStep]
    rw [List.foldl_cons, this]
    exact ih (g s x).1

theorem foldl_foldStep_false {σ α : Type} (g : σ → α → σ × Bool)
    (hg : ∀ s x, (g s x).2 = false → (g s x).1 = s) :
    ∀ (l : List α) (s : σ), (l.foldl (foldStep g) (s, false)).2 = false →
      (l.foldl (foldStep g) (s, false)).1 = s ∧ ∀ x ∈ l, (g s x).2 = false := by
  intro l
  induction l with
  | nil => intro s _; exact ⟨rfl, by simp⟩
  | cons x t ih =>
    intro s h
    have hstep : foldStep g (s, false) x = ((g s x).1, (g s x).2) := by
      simp [foldStep]
    rw [List.foldl_cons, hstep] at h ⊢
    cases hflag : (g s x).2 with
    | true =>
      rw [hflag] at h
      rw [foldStep_flag_true g t (g s x).1] at h
      exact absurd h (by simp)
    | false =>
      rw [hflag] at h
      rw [hg s x hflag] at h ⊢
      obtain ⟨h1, h2⟩ := ih s h
      refine ⟨h1, ?_⟩
      intro y hy
      rcases List.mem_cons.mp hy with rfl | hy'
      · exact hflag
      · exact h2 y hy'

/-! ### A round that reports no change leaves the state untouched -/

theorem update_routing_table_eq (r : Router) (nn : RId) (nt : Table) (w : ℤ)
    (hw : lookup nn r.neighbors = some w) :
    r.update_routing_table nn nt =
      some ({ r with
        routing_table := (nt.foldl (foldStep (relaxCore w nn)) (r.routing_table, false)).1 },
        (nt.foldl (foldStep (relaxCore w nn)) (r.routing_table, false)).2) := by
  simp [Router.update_routing_table, hw]

theorem update_isSome {r : Router} {nn : RId} {nt : Table} {p : Router × Bool}
    (h : r.update_routing_table nn nt = some p) : ∃ w, lookup nn r.neighbors = some w := by
  cases hw : lookup nn r.neighbors with
  | none => rw [Router.update_routing_table, hw] at h; simp at h
  | some w => exact ⟨w, rfl⟩

theorem relaxCore_eq_none (w : ℤ) (nn : RId) (t : Table) (p : RId × Entry)
    (hl : lookup p.1 t = none) :
    relaxCore w nn t p = (setKey p.1 (w + p.2.1, nn) t, true) := by
  simp [relaxCore, hl]

theorem relaxCore_eq_lt (w : ℤ) (nn : RId) (t : Table) (p : RId × Entry) (e : Entry)
    (hl : lookup p.1 t = some e) (hlt : w + p.2.1 < e.1) :
    relaxCore w nn t p = (setKey p.1 (w + p.2.1, nn) t, true) := by
  simp [relaxCore, hl, hlt]

theorem relaxCore_eq_ge (w : ℤ) (nn : RId) (t : Table) (p : RId × Entry) (e : Entry)
    (hl : lookup p.1 t = some e) (hlt : ¬ w + p.2.1 < e.1) :
    relaxCore w nn t p = (t, false) := by
  simp [relaxCore, hl, hlt]

theorem relaxCore_false {w : ℤ} {nn : RId} {t : Table} {p : RId × Entry}
    (h : (relaxCore w nn t p).2 = false) : (relaxCore w nn t p).1 = t := by
  cases hl : lookup p.1 t with
  | none =>
    rw [relaxCore_eq_none w nn t p hl] at h
    exact absurd h (by simp)
  | some e =>
    by_cases hlt : w + p.2.1 < e.1
    · rw [relaxCore_eq_lt w nn t p e hl hlt] at h
      exact absurd h (by simp)
    · rw [relaxCore_eq_ge w nn t p e hl hlt]

theorem update_false {r : Router} {nn : RId} {nt : Table} {r' : Router}
    (h : r.update_routing_table nn nt = some (r', false)) : r' = r := by
  obtain ⟨w, hw⟩ := update_isSome h
  rw [update_routing_table_eq r nn nt w hw] at h
  injection h with h1
  rw [Prod.mk.injEq] at h1
  obtain ⟨h2, h3⟩ := h1
  obtain ⟨h4, -⟩ := foldl_foldStep_false (relaxCore w nn)
    (fun _ _ hsx => relaxCore_false hsx) nt r.routing_table h3
  rw [h4] at h2
  exact h2.symm

theorem relaxOne_false {net : Network} {rid nid : RId}
    (h : (relaxOne net rid nid).2 = false) : (relaxOne net rid nid).1 = net := by
  cases hcur : lookup rid net.routers with
  | none => simp [relaxOne, hcur]
  | some cur =>
    cases hnb : lookup nid net.routers with
    | none => simp [relaxOne, hcur, hnb]
    | some nb =>
      cases hupd : cur.update_routing_table nid nb.routing_table with
      | none => simp [relaxOne, hcur, hnb, hupd]
      | some p =>
        obtain ⟨cur', m⟩ := p
        simp only [relaxOne, hcur, hnb, hupd] at h ⊢
        cases h
        rw [update_false hupd, setKey_eq_self hcur]

theorem processRouter_false {net : Network} {rid : RId}
    (h : (processRouter net rid).2 = false) : (processRouter net rid).1 = net := by
  cases hr : lookup rid net.routers with
  | none => simp [processRouter, hr]
  | some r =>
    simp only [processRouter, hr] at h ⊢
    exact (foldl_foldStep_false _ (fun _ _ hsx => relaxOne_false hsx) r.neighbors net h).1

theorem run_round_false {net : Network} (h : (run_round net).2 = false) :
    (run_round net).1 = net := by
  simp only [run_round] at h ⊢
  exact (foldl_foldStep_false processRouter (fun _ _ hsx => processRouter_false hsx)
    (net.routers.map Prod.fst) net h).1

/-- C8: once a full round produces no change to any routing table, a further
round also produces no change and leaves every router's routing table exactly
identical to its state before that round. -/
theorem C8_fixpoint_idempotent (net : Network) (h : (run_round net).2 = false) :
    (run_round net).1 = net ∧ run_round ((run_round net).1) = (net, false) := by
  have h1 := run_round_false h
  refine ⟨h1, ?_⟩
  rw [h1]
  exact Prod.ext_iff.mpr ⟨h1, h⟩

/-- Witness for C8 at a concrete fixed point: the one-router network is
already converged, and a further round is a no-op. -/
theorem C8_witness :
    (run_round netSolo).1 = netSolo ∧ run_round ((run_round netSolo).1) = (netSolo, false) :=
  C8_fixpoint_idempotent netSolo (by decide)

/-! ### Monotonicity: entries are never removed and costs never increase -/

/-- Pointwise table evolution within a run: every destination present in the
first table is present in the second with a cost that is no larger. -/
def TableLe (t₁ t₂ : Table) : Prop :=
  ∀ d e, lookup d t₁ = some e → ∃ e', lookup d t₂ = some e' ∧ e'.1 ≤ e.1

theorem tableLe_refl (t : Table) : TableLe t t :=
  fun _ e he => ⟨e, he, le_refl e.1⟩

theorem tableLe_trans {t₁ t₂ t₃ : Table} (h1 : TableLe t₁ t₂) (h2 : TableLe t₂ t₃) :
    TableLe t₁ t₃ := by
  intro d e he
  obtain ⟨e', he', hle'⟩ := h1 d e he
  obtain ⟨e'', he'', hle''⟩ := h2 d e' he'
  exact ⟨e'', he'', le_trans hle'' hle'⟩

theorem relaxCore_tableLe (w : ℤ) (nn : RId) (t : Table) (p : RId × Entry) :
    TableLe t (relaxCore w nn t p).1 := by
  intro d e he
  cases hl : lookup p.1 t with
  | none =>
    rw [relaxCore_eq_none w nn t p hl]
    have hne : d ≠ p.1 := by
      rintro rfl
      rw [he] at hl
      exact Option.noConfusion hl
    exact ⟨e, by rw [lookup_setKey_ne hne, he], le_refl e.1⟩
  | some e0 =>
    by_cases hlt : w + p.2.1 < e0.1
    · rw [relaxCore_eq_lt w nn t p e0 hl hlt]
      by_cases hd : d = p.1
      · subst hd
        rw [he] at hl
        injection hl with hl
        subst hl
        exact ⟨(w + p.2.1, nn), by rw [lookup_setKey_self], le_of_lt hlt⟩
      · exact ⟨e, by rw [lookup_setKey_ne hd, he], le_refl e.1⟩
    · rw [relaxCore_eq_ge w nn t p e0 hl hlt]
      exact ⟨e, he, le_refl e.1⟩

theorem update_tableLe {r : Router} {nn : RId} {nt : Table} {r' : Router} {m : Bool}
    (h : r.update_routing_table nn nt = some (r', m)) :
    r'.name = r.name ∧ r'.neighbors = r.neighbors ∧
      TableLe r.routing_table r'.routing_table := by
  obtain ⟨w, hw⟩ := update_isSome h
  rw [update_routing_table_eq r nn nt w hw] at h
  injection h with h1
  rw [Prod.mk.injEq] at h1
  rw [← h1.1]
  refine ⟨rfl, rfl, ?_⟩
  refine foldl_preserve (fun s => TableLe r.routing_table s.1) nt
    (foldStep (relaxCore w nn)) ?_ (r.routing_table, false) (tableLe_refl _)
  intro s x _ hs
  exact tableLe_trans hs (relaxCore_tableLe w nn s.1 x)

/-- Pointwise network evolution within a run: every router keeps its identity
and neighbor map, and its table only grows or improves. -/
def NetLe (n₁ n₂ : Network) : Prop :=
  ∀ rid r, lookup rid n₁.routers = some r →
    ∃ r', lookup rid n₂.routers = some r' ∧ r'.name = r.name ∧
      r'.neighbors = r.neighbors ∧ TableLe r.routing_table r'.routing_table

theorem netLe_refl (net : Network) : NetLe net net :=
  fun _ r hr => ⟨r, hr, Eq.refl _, Eq.refl _, tableLe_refl _⟩

theorem netLe_trans {n₁ n₂ n₃ : Network} (h1 : NetLe n₁ n₂) (h2 : NetLe n₂ n₃) :
    NetLe n₁ n₃ := by
  intro rid r hr
  obtain ⟨r', hr', hn', hb', ht'⟩ := h1 rid r hr
  obtain ⟨r'', hr'', hn'', hb'', ht''⟩ := h2 rid r' hr'
  exact ⟨r'', hr'', hn''.trans hn', hb''.trans hb', tableLe_trans ht' ht''⟩

theorem relaxOne_netLe (net : Network) (rid nid : RId) :
    NetLe net (relaxOne net rid nid).1 := by
  cases hcur : lookup rid net.routers with
  | none => simp only [relaxOne, hcur]; exact netLe_refl net
  | some cur =>
    cases hnb : lookup nid net.routers with
    | none => simp only [relaxOne, hcur, hnb]; exact netLe_refl net
    | some nb =>
      cases hupd : cur.update_routing_table nid nb.routing_table with
      | none => simp only [relaxOne, hcur, hnb, hupd]; exact netLe_refl net
      | some p =>
        obtain ⟨cur', m⟩ := p
        simp only [relaxOne, hcur, hnb, hupd]
        intro x rx hx
        by_cases hxr : x = rid
        · subst hxr
          rw [hx] at hcur
          injection hcur with hcur
          subst hcur
          obtain ⟨h1, h2, h3⟩ := update_tableLe hupd
          exact ⟨cur', by rw [show (⟨setKey x cur' net.routers⟩ : Network).routers =
            setKey x cur' net.routers from rfl, lookup_setKey_self], h1, h2, h3⟩
        · exact ⟨rx, by rw [show (⟨setKey rid cur' net.routers⟩ : Network).routers =
            setKey rid cur' net.routers from rfl, lookup_setKey_ne hxr]; exact hx,
            rfl, rfl, tableLe_refl _⟩

theorem processRouter_netLe (net : Network) (rid : RId) :
    NetLe net (processRouter net rid).1 := by
  cases hr : lookup rid net.routers with
  | none => simp only [processRouter, hr]; exact netLe_refl net
  | some r =>
    simp only [processRouter, hr]
    refine foldl_preserve (fun s => NetLe net s.1) r.neighbors _ ?_ (net, false)
      (netLe_refl net)
    intro s x _ hs
    exact netLe_trans hs (relaxOne_netLe s.1 rid x.1)

theorem run_round_netLe (net : Network) : NetLe net (run_round net).1 := by
  simp only [run_round]
  refine foldl_preserve (fun s => NetLe net s.1) (net.routers.map Prod.fst) _ ?_
    (net, false) (netLe_refl net)
  intro s x _ hs
  exact netLe_trans hs (processRouter_netLe s.1 x)

theorem netAfter_zero (net : Network) : netAfter net 0 = net := rfl

theorem netAfter_succ_outer (net : Network) (k : Nat) :
    netAfter net (k + 1) = (run_round (netAfter net k)).1 :=
  Function.iterate_succ_apply' (fun n => (run_round n).1) k net

theorem netAfter_succ_inner (net : Network) (k : Nat) :
    netAfter net (k + 1) = netAfter (run_round net).1 k :=
  Function.iterate_succ_apply (fun n => (run_round n).1) k net

/-- C7: over the rounds of a simulation run, a recorded cost for a fixed
router and destination never increases, and no destination entry is ever
removed from any routing table. -/
theorem C7_monotone (net : Network) (k : Nat) (rid d : RId) (r : Router) (e : Entry)
    (hr : lookup rid (netAfter net k).routers = some r)
    (he : lookup d r.routing_table = some e) :
    ∃ r' e', lookup rid (netAfter net (k + 1)).routers = some r' ∧
      lookup d r'.routing_table = some e' ∧ e'.1 ≤ e.1 := by
  obtain ⟨r', hr', -, -, ht⟩ := (netAfter_succ_outer net k ▸
    run_round_netLe (netAfter net k)) rid r hr
  obtain ⟨e', he', hle⟩ := ht d e he
  exact ⟨r', e', hr', he', hle⟩

/-- Witness for C7: in the example network, router A's direct route to B
(cost 1) survives the first round with a cost that has not increased. -/
theorem C7_witness :
    ∃ r' e', lookup "A" (netAfter exampleNetwork 1).routers = some r' ∧
      lookup "B" r'.routing_table = some e' ∧ e'.1 ≤ 1 :=
  C7_monotone exampleNetwork 0 "A" "B"
    ⟨"A", [("B", 1), ("F", 3)],
      [("B", (1, "B")), ("A", (0, "A")), ("F", (3, "F"))]⟩ (1, "B")
    (by decide) (by decide)

/-! ### The simulation driver: status reporting and round counting -/

theorem simulate_zero (net : Network) : net.simulate 0 = (net, 0, Status.EXHAUSTED) := rfl

theorem simulate_succ_true (net : Network) (f : Nat) (h : (run_round net).2 = true) :
    net.simulate (f + 1) = (((run_round net).1.simulate f).1,
      ((run_round net).1.simulate f).2.1 + 1, ((run_round net).1.simulate f).2.2) := by
  simp [Network.simulate, h]

theorem simulate_succ_false (net : Network) (f : Nat) (h : (run_round net).2 = false) :
    net.simulate (f + 1) = ((run_round net).1, 1, Status.CONVERGED) := by
  simp [Network.simulate, h]

/-- C5 (amended): the status the simulation reports is `CONVERGED` exactly when
the last executed round produced no changes and every earlier round did, and
`EXHAUSTED` exactly when all `max_iterations` rounds produced changes; the
reported count is the number of executed rounds (at most the cap), and the
final network is precisely the state after those rounds (no exception, tables
intact).  The Python method conveys this on the console only: its return value
to the caller is `None` (see `simulateReturnValue`). -/
theorem C5_simulate_reports (net : Network) (f : Nat) :
    ((net.simulate f).2.2 = Status.CONVERGED ∨ (net.simulate f).2.2 = Status.EXHAUSTED) ∧
    (net.simulate f).1 = netAfter net (net.simulate f).2.1 ∧
    (net.simulate f).2.1 ≤ f ∧
    ((net.simulate f).2.2 = Status.CONVERGED →
      0 < (net.simulate f).2.1 ∧
      (run_round (netAfter net ((net.simulate f).2.1 - 1))).2 = false ∧
      ∀ k, k + 1 < (net.simulate f).2.1 → (run_round (netAfter net k)).2 = true) ∧
    ((net.simulate f).2.2 = Status.EXHAUSTED →
      (net.simulate f).2.1 = f ∧ ∀ k, k < f → (run_round (netAfter net k)).2 = true) := by
  induction f generalizing net with
  | zero =>
    rw [simulate_zero]
    refine ⟨Or.inr rfl, (netAfter_zero net).symm, le_refl 0, ?_, ?_⟩
    · intro h
      exact Status.noConfusion h
    · intro _
      exact ⟨rfl, fun k hk => absurd hk (Nat.not_lt_zero k)⟩
  | succ f ih =>
    cases hrr : (run_round net).2 with
    | true =>
      obtain ⟨ih1, ih2, ih3, ih4, ih5⟩ := ih (run_round net).1
      rw [simulate_succ_true net f hrr]
      refine ⟨ih1, ?_, Nat.succ_le_succ ih3, ?_, ?_⟩
      · rw [netAfter_succ_inner]
        exact ih2
      · intro h
        obtain ⟨hpos, hfix, hall⟩ := ih4 h
        refine ⟨Nat.succ_pos _, ?_, ?_⟩
        · have h1 : ((run_round net).1.simulate f).2.1 + 1 - 1 =
            ((run_round net).1.simulate f).2.1 := by omega
          rw [h1]
          have h2 : ((run_round net).1.simulate f).2.1 =
            (((run_round net).1.simulate f).2.1 - 1) + 1 := by omega
          rw [h2, netAfter_succ_inner]
          exact hfix
        · intro k hk
          cases k with
          | zero => rw [netAfter_zero]; exact hrr
          | succ k' =>
            rw [netAfter_succ_inner]
            refine hall k' ?_
            have hk2 : k' + 1 + 1 < ((run_round net).1.simulate f).2.1 + 1 := hk
            omega
      · intro h
        obtain ⟨hf, hall⟩ := ih5 h
        refine ⟨by rw [hf], ?_⟩
        intro k hk
        cases k with
        | zero => rw [netAfter_zero]; exact hrr
        | succ k' =>
          rw [netAfter_succ_inner]
          exact hall k' (by omega)
    | false =>
      rw [simulate_succ_false net f hrr]
      refine ⟨Or.inl rfl, ?_, Nat.succ_le_succ (Nat.zero_le f), ?_, ?_⟩
      · show (run_round net).1 = netAfter net (0 + 1)
        rw [netAfter_succ_outer, netAfter_zero]
      · intro _
        refine ⟨Nat.one_pos, ?_, ?_⟩
        · show (run_round (netAfter net (1 - 1))).2 = false
          rw [show (1 : Nat) - 1 = 0 from rfl, netAfter_zero]
          exact hrr
        · intro k hk
          have hk2 : k + 1 < 1 := hk
          omega
      · intro h
        exact Status.noConfusion h

/-- C5 counterexample: the Python `simulate` method has no `return` statement,
so the caller receives `None` rather than a `(status, iterations)` outcome; on
the example network the value handed back carries no status at all. -/
theorem C5_returns_none_cex : simulateReturnValue exampleNetwork 100 = none := rfl

/-- Witness for C5 on the example network: the final state equals the state
after the reported number of rounds, the count respects the cap, and the
convergence clause fires. -/
theorem C5_witness :
    (Network.simulate exampleNetwork 100).1 =
      netAfter exampleNetwork (Network.simulate exampleNetwork 100).2.1 ∧
    (Network.simulate exampleNetwork 100).2.1 ≤ 100 ∧
    0 < (Network.simulate exampleNetwork 100).2.1 :=
  ⟨(C5_simulate_reports exampleNetwork 100).2.1,
   (C5_simulate_reports exampleNetwork 100).2.2.1,
   ((C5_simulate_reports exampleNetwork 100).2.2.2.1 (by decide)).1⟩

/-- C2 counterexample: at convergence router A's entry for E is `(4, B)` and
for D is `(5, B)` — the expected table's next hops "E=4 via F" and "D=5 via E"
do not match the converged table (E is not even adjacent to A). -/
theorem C2_next_hops_cex :
    ((lookup "A" (Network.simulate exampleNetwork 100).1.routers).bind
      (fun r => lookup "E" r.routing_table)) ≠ some (4, "F") ∧
    ((lookup "A" (Network.simulate exampleNetwork 100).1.routers).bind
      (fun r => lookup "D" r.routing_table)) ≠ some (5, "E") :=
  ⟨by decide, by decide⟩

/-- C2 (amended): on the fixed example topology the simulation converges in 4
rounds (within the 100-round cap) with status `CONVERGED`, and router A's
converged table is exactly A=0 (self), B=1 via B, F=2 via B, C=4 via B,
E=4 via B, D=5 via B. -/
theorem C2_example_converges :
    (Network.simulate exampleNetwork 100).2.2 = Status.CONVERGED ∧
    (Network.simulate exampleNetwork 100).2.1 = 4 ∧
    (lookup "A" (Network.simulate exampleNetwork 100).1.routers).map Router.routing_table =
      some [("B", (1, "B")), ("A", (0, "A")), ("F", (2, "B")), ("C", (4, "B")),
        ("E", (4, "B")), ("D", (5, "B"))] :=
  ⟨by decide, by decide, by decide⟩

/-- C9: the neighbor snapshot is taken at the moment of use, not frozen at the
start of the round.  In `net9` neither A nor B knows destination D at the start
of round 1; A (processed first) learns D through C during the round, and B
(whose only neighbor is A) already observes and propagates that same-round
improvement, ending round 1 with D at cost 3 via A. -/
theorem C9_live_snapshot :
    ((lookup "A" net9.routers).bind (fun r => lookup "D" r.routing_table)) = none ∧
    ((lookup "B" net9.routers).bind (fun r => lookup "D" r.routing_table)) = none ∧
    ((lookup "B" (run_round net9).1.routers).bind (fun r => lookup "D" r.routing_table))
      = some (3, "A") :=
  ⟨by decide, by decide, by decide⟩

/-- C10: calling `add_router` with an id already present silently replaces the
router with a fresh one whose neighbor map and routing table are empty,
discarding its links and learned routes, while every other router (and hence
any neighbor reference to the replaced id) is left untouched. -/
theorem C10_add_router_replaces (net : Network) (name : RId) (r : Router)
    (_h : lookup name net.routers = some r) :
    lookup name (net.add_router name).routers = some (mkRouter name) ∧
    (mkRouter name).neighbors = [] ∧ (mkRouter name).routing_table = [] ∧
    ∀ o, o ≠ name → lookup o (net.add_router name).routers = lookup o net.routers := by
  refine ⟨lookup_setKey_self name (mkRouter name) net.routers, rfl, rfl, ?_⟩
  intro o ho
  exact lookup_setKey_ne ho (mkRouter name) net.routers

/-- Witness for C10: re-adding router A to the linked two-router network
yields a fresh empty A while B (still holding its A link) is unchanged. -/
theorem C10_witness :
    lookup "A" (netAB.add_router "A").routers = some (mkRouter "A") ∧
    lookup "B" (netAB.add_router "A").routers = lookup "B" netAB.routers :=
  ⟨(C10_add_router_replaces netAB "A"
      ⟨"A", [("B", 2)], [("B", (2, "B")), ("A", (0, "A"))]⟩ (by decide)).1,
   (C10_add_router_replaces netAB "A"
      ⟨"A", [("B", 2)], [("B", (2, "B")), ("A", (0, "A"))]⟩ (by decide)).2.2.2 "B"
      (by decide)⟩

/-! ### The self route -/

theorem relaxCore_lookup_ne {w : ℤ} {nn : RId} {t : Table} {p : RId × Entry} {d : RId}
    (h : d ≠ p.1) : lookup d (relaxCore w nn t p).1 = lookup d t := by
  cases hl : lookup p.1 t with
  | none => rw [relaxCore_eq_none w nn t p hl]; exact lookup_setKey_ne h _ _
  | some e =>
    by_cases hlt : w + p.2.1 < e.1
    · rw [relaxCore_eq_lt w nn t p e hl hlt]; exact lookup_setKey_ne h _ _
    · rw [relaxCore_eq_ge w nn t p e hl hlt]

/-- A relaxation sweep with non-negative candidates never disturbs an
existing cost-0 self entry. -/
theorem relaxFold_self {w : ℤ} {nn name : RId} {nt : Table} {t : Table}
    (hw : 0 ≤ w) (hnt : ∀ p ∈ nt, 0 ≤ p.2.1)
    (hself : lookup name t = some (0, name)) :
    lookup name (nt.foldl (foldStep (relaxCore w nn)) (t, false)).1 = some (0, name) := by
  refine foldl_preserve (fun s => lookup name s.1 = some (0, name)) nt
    (foldStep (relaxCore w nn)) ?_ (t, false) hself
  intro s x hx hs
  show lookup name (relaxCore w nn s.1 x).1 = some (0, name)
  by_cases hxn : name = x.1
  · have hl : lookup x.1 s.1 = some (0, name) := hxn ▸ hs
    have hge : ¬ w + x.2.1 < (0 : ℤ) := not_lt.mpr (add_nonneg hw (hnt x hx))
    rw [relaxCore_eq_ge w nn s.1 x (0, name) hl hge]
    exact hs
  · rw [relaxCore_lookup_ne hxn]
    exact hs

/-- C4 (amended): `add_neighbor` (re)establishes `routing_table[self] = (0, self)`
and a relaxation call with non-negative link and advertised costs preserves it;
but `Router.__init__` leaves the routing table empty, so immediately after
router creation the self entry is absent until the first `add_neighbor`. -/
theorem C4_self_route :
    (∀ (r : Router) (n : RId) (c : ℤ),
      lookup r.name (r.add_neighbor n c).routing_table = some (0, r.name)) ∧
    (∀ (r : Router) (nn : RId) (nt : Table) (r' : Router) (m : Bool) (w : ℤ),
      lookup nn r.neighbors = some w → 0 ≤ w → (∀ p ∈ nt, 0 ≤ p.2.1) →
      lookup r.name r.routing_table = some (0, r.name) →
      r.update_routing_table nn nt = some (r', m) →
      lookup r'.name r'.routing_table = some (0, r'.name)) ∧
    (∀ name, (mkRouter name).routing_table = []) := by
  refine ⟨?_, ?_, fun _ => rfl⟩
  · intro r n c
    exact lookup_setKey_self r.name (0, r.name) _
  · intro r nn nt r' m w hw hw0 hnt hself hupd
    rw [update_routing_table_eq r nn nt w hw] at hupd
    injection hupd with h1
    rw [Prod.mk.injEq] at h1
    rw [← h1.1]
    exact relaxFold_self hw0 hnt hself

/-- C4 counterexample: immediately after `add_router` creates router A, its
routing table is empty — the claimed self entry `(0, A)` is absent at that
mutation point. -/
theorem C4_fresh_router_cex :
    ((lookup "A" (emptyNetwork.add_router "A").routers).bind
      (fun r => lookup "A" r.routing_table)) = none := by decide

/-- Witness for C4: the self route holds after a concrete `add_neighbor`, and
survives a concrete relaxation with non-negative costs. -/
theorem C4_witness :
    lookup "A" ((mkRouter "A").add_neighbor "B" 2).routing_table = some (0, "A") ∧
    lookup "A" [("B", ((2 : ℤ), "B")), ("A", (0, "A")), ("C", (3, "B"))] = some (0, "A") :=
  ⟨C4_self_route.1 (mkRouter "A") "B" 2,
   C4_self_route.2.1 ⟨"A", [("B", 2)], [("B", (2, "B")), ("A", (0, "A"))]⟩ "B"
     [("C", (1, "C"))]
     ⟨"A", [("B", 2)], [("B", (2, "B")), ("A", (0, "A")), ("C", (3, "B"))]⟩ true 2
     (by decide) (by decide) (by decide) (by decide) (by decide)⟩

/-! ### Link creation: partial mutation on failure, symmetry on success -/

/-- The symmetry invariant the spec states for links: the two endpoint routers
record the same cost for each other. -/
def LinkSym (net : Network) : Prop :=
  ∀ u ru v rv, lookup u net.routers = some ru → lookup v net.routers = some rv →
    lookup v ru.neighbors = lookup u rv.neighbors

theorem lookup_add_neighbor_nbrs (r : Router) (n : RId) (c : ℤ) (k : RId) :
    lookup k (r.add_neighbor n c).neighbors =
      if k = n then some c else lookup k r.neighbors := by
  by_cases hk : k = n
  · subst hk
    simp [Router.add_neighbor, lookup_setKey_self]
  · simp only [Router.add_neighbor, if_neg hk]
    exact lookup_setKey_ne hk c r.neighbors

theorem add_link_eq_none (net : Network) (u v : RId) (c : ℤ)
    (hu : lookup u net.routers = none) : net.add_link u v c = (net, false) := by
  simp [Network.add_link, hu]

theorem add_link_eq_half (net : Network) (u v : RId) (c : ℤ) (ru : Router)
    (hu : lookup u net.routers = some ru)
    (hv : lookup v (setKey u (ru.add_neighbor v c) net.routers) = none) :
    net.add_link u v c = (⟨setKey u (ru.add_neighbor v c) net.routers⟩, false) := by
  simp [Network.add_link, hu, hv]

theorem add_link_eq_full (net : Network) (u v : RId) (c : ℤ) (ru rv : Router)
    (hu : lookup u net.routers = some ru)
    (hv : lookup v (setKey u (ru.add_neighbor v c) net.routers) = some rv) :
    net.add_link u v c =
      (⟨setKey v (rv.add_neighbor u c) (setKey u (ru.add_neighbor v c) net.routers)⟩,
        true) := by
  simp [Network.add_link, hu, hv]

/-- C6 (amended): when both endpoints exist, `add_link` installs the cost in
both routers' neighbor maps (preserving the symmetry invariant for every pair
of routers) and leaves all other routers untouched; but the call is not
atomic: if `router2` is missing, `router1` has already been mutated when the
`KeyError` fires, and only a missing `router1` leaves the network unchanged. -/
theorem C6_add_link_spec :
    (∀ (net : Network) (u v : RId) (c : ℤ) (ru rv : Router),
      lookup u net.routers = some ru → lookup v net.routers = some rv → u ≠ v →
      (net.add_link u v c).2 = true ∧
      lookup u (net.add_link u v c).1.routers = some (ru.add_neighbor v c) ∧
      lookup v (net.add_link u v c).1.routers = some (rv.add_neighbor u c) ∧
      lookup v (ru.add_neighbor v c).neighbors = some c ∧
      lookup u (rv.add_neighbor u c).neighbors = some c ∧
      (∀ x, x ≠ u → x ≠ v → lookup x (net.add_link u v c).1.routers = lookup x net.routers) ∧
      (LinkSym net → LinkSym (net.add_link u v c).1)) ∧
    (∀ (net : Network) (u v : RId) (c : ℤ) (ru : Router),
      lookup u net.routers = some ru → lookup v net.routers = none →
      (net.add_link u v c).2 = false ∧
      lookup u (net.add_link u v c).1.routers = some (ru.add_neighbor v c)) ∧
    (∀ (net : Network) (u v : RId) (c : ℤ),
      lookup u net.routers = none → net.add_link u v c = (net, false)) := by
  refine ⟨?_, ?_, fun net u v c hu => add_link_eq_none net u v c hu⟩
  · intro net u v c ru rv hu hv huv
    have hvu : v ≠ u := Ne.symm huv
    have hv1 : lookup v (setKey u (ru.add_neighbor v c) net.routers) = some rv := by
      rw [lookup_setKey_ne hvu]
      exact hv
    rw [add_link_eq_full net u v c ru rv hu hv1]
    refine ⟨rfl, ?_, ?_, ?_, ?_, ?_, ?_⟩
    · show lookup u (setKey v (rv.add_neighbor u c)
        (setKey u (ru.add_neighbor v c) net.routers)) = some (ru.add_neighbor v c)
      rw [lookup_setKey_ne huv, lookup_setKey_self]
    · exact lookup_setKey_self v (rv.add_neighbor u c) _
    · rw [lookup_add_neighbor_nbrs, if_pos rfl]
    · rw [lookup_add_neighbor_nbrs, if_pos rfl]
    · intro x hxu hxv
      show lookup x (setKey v (rv.add_neighbor u c)
        (setKey u (ru.add_neighbor v c) net.routers)) = lookup x net.routers
      rw [lookup_setKey_ne hxv, lookup_setKey_ne hxu]
    · intro hsym x rx y ry hx hy
      have hchar : ∀ (z : RId) (rz : Router),
          lookup z (setKey v (rv.add_neighbor u c)
            (setKey u (ru.add_neighbor v c) net.routers)) = some rz →
          (z = v ∧ rz = rv.add_neighbor u c) ∨
          (z ≠ v ∧ z = u ∧ rz = ru.add_neighbor v c) ∨
          (z ≠ v ∧ z ≠ u ∧ lookup z net.routers = some rz) := by
        intro z rz hz
        by_cases hzv : z = v
        · subst hzv
          rw [lookup_setKey_self] at hz
          injection hz with hz
          exact Or.inl ⟨rfl, hz.symm⟩
        · rw [lookup_setKey_ne hzv] at hz
          by_cases hzu : z = u
          · subst hzu
            rw [lookup_setKey_self] at hz
            injection hz with hz
            exact Or.inr (Or.inl ⟨hzv, rfl, hz.symm⟩)
          · rw [lookup_setKey_ne hzu] at hz
            exact Or.inr (Or.inr ⟨hzv, hzu, hz⟩)
      rcases hchar x rx hx with ⟨hxv, rfl⟩ | ⟨hxv, hxu, rfl⟩ | ⟨hxv, hxu, hx'⟩ <;>
        rcases hchar y ry hy with ⟨hyv, rfl⟩ | ⟨hyv, hyu, rfl⟩ | ⟨hyv, hyu, hy'⟩
      · rw [hxv, hyv]
      · rw [hxv, hyu, lookup_add_neighbor_nbrs, lookup_add_neighbor_nbrs,
          if_pos rfl, if_pos rfl]
      · rw [hxv, lookup_add_neighbor_nbrs, if_neg hyu]
        exact hsym v rv y ry hv hy'
      · rw [hxu, hyv, lookup_add_neighbor_nbrs, lookup_add_neighbor_nbrs,
          if_pos rfl, if_pos rfl]
      · rw [hxu, hyu]
      · rw [hxu, lookup_add_neighbor_nbrs, if_neg hyv]
        exact hsym u ru y ry hu hy'
      · rw [hyv, lookup_add_neighbor_nbrs, if_neg hxu]
        exact hsym x rx v rv hx' hv
      · rw [hyu, lookup_add_neighbor_nbrs, if_neg hxv]
        exact hsym x rx u ru hx' hu
      · exact hsym x rx y ry hx' hy'
  · intro net u v c ru hu hv
    have hv1 : lookup v (setKey u (ru.add_neighbor v c) net.routers) = none := by
      by_cases hvu : v = u
      · subst hvu
        rw [hu] at hv
        exact Option.noConfusion hv
      · rw [lookup_setKey_ne hvu]
        exact hv
    rw [add_link_eq_half net u v c ru hu hv1]
    exact ⟨rfl, lookup_setKey_self u (ru.add_neighbor v c) net.routers⟩

/-- C6 counterexample: with only router A present, `add_link A B 1` mutates A
(the B link is installed) before the lookup of the missing B fails, so the
failed call is not both-or-neither and does change a router's state. -/
theorem C6_partial_mutation_cex :
    (netSolo.add_link "A" "B" 1).2 = false ∧
    (netSolo.add_link "A" "B" 1).1 ≠ netSolo ∧
    ((lookup "A" (netSolo.add_link "A" "B" 1).1.routers).map Router.neighbors)
      = some [("B", 1)] :=
  ⟨by decide, by decide, by decide⟩

/-- Witness for C6: linking two freshly added routers succeeds, installs the
cost symmetrically, and preserves the symmetry invariant. -/
theorem C6_witness :
    ((((emptyNetwork.add_router "A").add_router "B").add_link "A" "B" 5).2 = true) ∧
    lookup "B" ((mkRouter "A").add_neighbor "B" 5).neighbors = some 5 ∧
    lookup "A" ((mkRouter "B").add_neighbor "A" 5).neighbors = some 5 :=
  ⟨(C6_add_link_spec.1 ((emptyNetwork.add_router "A").add_router "B") "A" "B" 5
      (mkRouter "A") (mkRouter "B") (by decide) (by decide) (by decide)).1,
   (C6_add_link_spec.1 ((emptyNetwork.add_router "A").add_router "B") "A" "B" 5
      (mkRouter "A") (mkRouter "B") (by decide) (by decide) (by decide)).2.2.2.1,
   (C6_add_link_spec.1 ((emptyNetwork.add_router "A").add_router "B") "A" "B" 5
      (mkRouter "A") (mkRouter "B") (by decide) (by decide) (by decide)).2.2.2.2.1⟩

/-! ### Exact characterization of one relaxation call -/

/-- The source's update condition for destination `d` with candidate cost
`cand`: either `d` has no entry yet, or the candidate is strictly cheaper. -/
def Improves (t : Table) (d : RId) (cand : ℤ) : Prop :=
  lookup d t = none ∨ ∃ e, lookup d t = some e ∧ cand < e.1

theorem improves_congr (cand : ℤ) {t t' : Table} {d : RId}
    (h : lookup d t = lookup d t') : Improves t d cand ↔ Improves t' d cand := by
  unfold Improves
  rw [h]

theorem relaxCore_eq_of_improves {w : ℤ} {nn : RId} {t : Table} {p : RId × Entry}
    (h : Improves t p.1 (w + p.2.1)) :
    relaxCore w nn t p = (setKey p.1 (w + p.2.1, nn) t, true) := by
  rcases h with h | ⟨e, he, hlt⟩
  · exact relaxCore_eq_none w nn t p h
  · exact relaxCore_eq_lt w nn t p e he hlt

theorem relaxCore_eq_of_not_improves {w : ℤ} {nn : RId} {t : Table} {p : RId × Entry}
    (h : ¬ Improves t p.1 (w + p.2.1)) : relaxCore w nn t p = (t, false) := by
  cases hl : lookup p.1 t with
  | none => exact absurd (Or.inl hl) h
  | some e =>
    by_cases hlt : w + p.2.1 < e.1
    · exact absurd (Or.inr ⟨e, hl, hlt⟩) h
    · exact relaxCore_eq_ge w nn t p e hl hlt

theorem relaxCore_flag_iff (w : ℤ) (nn : RId) (t : Table) (p : RId × Entry) :
    (relaxCore w nn t p).2 = true ↔ Improves t p.1 (w + p.2.1) := by
  by_cases h : Improves t p.1 (w + p.2.1)
  · rw [relaxCore_eq_of_improves h]
    simp [h]
  · rw [relaxCore_eq_of_not_improves h]
    simp [h]

theorem exists_mem_cons {α : Type} (P : α → Prop) (a : α) (l : List α) :
    (∃ x ∈ a :: l, P x) ↔ P a ∨ ∃ x ∈ l, P x := by
  constructor
  · rintro ⟨x, hx, hP⟩
    rcases List.mem_cons.mp hx with rfl | hx'
    · exact Or.inl hP
    · exact Or.inr ⟨x, hx', hP⟩
  · rintro (hP | ⟨x, hx, hP⟩)
    · exact ⟨a, List.mem_cons_self a l, hP⟩
    · exact ⟨x, List.mem_cons.mpr (Or.inr hx), hP⟩

/-- The full behaviour of the relaxation sweep over an advertised table with
distinct destinations: untouched keys keep their entry, each advertised
destination is rewritten to `(w + cost, nn)` exactly when the source's update
condition holds, and the `modified` flag is the disjunction of those
conditions over the advertised entries. -/
theorem relaxFold_spec (w : ℤ) (nn : RId) :
    ∀ (nt : Table) (t : Table) (b : Bool), keysNodup nt →
      (∀ d, (∀ e, (d, e) ∉ nt) →
        lookup d (nt.foldl (foldStep (relaxCore w nn)) (t, b)).1 = lookup d t) ∧
      (∀ p ∈ nt,
        (Improves t p.1 (w + p.2.1) →
          lookup p.1 (nt.foldl (foldStep (relaxCore w nn)) (t, b)).1 = some (w + p.2.1, nn)) ∧
        (¬ Improves t p.1 (w + p.2.1) →
          lookup p.1 (nt.foldl (foldStep (relaxCore w nn)) (t, b)).1 = lookup p.1 t)) ∧
      ((nt.foldl (foldStep (relaxCore w nn)) (t, b)).2 = true ↔
        b = true ∨ ∃ p ∈ nt, Improves t p.1 (w + p.2.1)) := by
  intro nt
  induction nt with
  | nil =>
    intro t b _
    refine ⟨fun d _ => rfl, by simp, ?_⟩
    simp
  | cons p0 rest ih =>
    obtain ⟨d0, e0⟩ := p0
    intro t b hnod
    unfold keysNodup at hnod
    rw [List.map_cons] at hnod
    obtain ⟨h0, hrest⟩ := List.nodup_cons.mp hnod
    have hstep : foldStep (relaxCore w nn) (t, b) (d0, e0) =
        ((relaxCore w nn t (d0, e0)).1, b || (relaxCore w nn t (d0, e0)).2) := rfl
    rw [List.foldl_cons, hstep]
    obtain ⟨IH1, IH2, IH3⟩ := ih (relaxCore w nn t (d0, e0)).1
      (b || (relaxCore w nn t (d0, e0)).2) hrest
    refine ⟨?_, ?_, ?_⟩
    · intro d hd
      have hd0 : d ≠ d0 := by
        rintro rfl
        exact hd e0 (List.mem_cons_self _ _)
      have hdrest : ∀ e, (d, e) ∉ rest := fun e he => hd e (List.mem_cons.mpr (Or.inr he))
      rw [IH1 d hdrest]
      exact relaxCore_lookup_ne hd0
    · intro p hp
      rcases List.mem_cons.mp hp with rfl | hp'
      · have hnotin : ∀ e, (d0, e) ∉ rest := by
          intro e he
          exact h0 (@key_mem_of_mem Entry (d0, e) rest he)
        have hL := IH1 d0 hnotin
        constructor
        · intro himp
          rw [hL, show (relaxCore w nn t (d0, e0)).1 = setKey d0 (w + e0.1, nn) t from by
            rw [relaxCore_eq_of_improves himp]]
          exact lookup_setKey_self d0 (w + e0.1, nn) t
        · intro hnimp
          rw [hL, show (relaxCore w nn t (d0, e0)).1 = t from by
            rw [relaxCore_eq_of_not_improves hnimp]]
      · have hne : p.1 ≠ d0 := by
          intro h1
          have h2 := key_mem_of_mem hp'
          rw [h1] at h2
          exact h0 h2
        have hcong : lookup p.1 (relaxCore w nn t (d0, e0)).1 = lookup p.1 t :=
          relaxCore_lookup_ne hne
        have hiff := improves_congr (w + p.2.1) hcong
        obtain ⟨IH2a, IH2b⟩ := IH2 p hp'
        constructor
        · intro himp
          exact IH2a (hiff.mpr himp)
        · intro hnimp
          rw [IH2b (fun h1 => hnimp (hiff.mp h1)), hcong]
    · have hEx : (∃ p ∈ rest, Improves (relaxCore w nn t (d0, e0)).1 p.1 (w + p.2.1)) ↔
          ∃ p ∈ rest, Improves t p.1 (w + p.2.1) := by
        constructor
        · rintro ⟨p, hp', himp⟩
          have hne : p.1 ≠ d0 := by
            intro h1
            have h2 := key_mem_of_mem hp'
            rw [h1] at h2
            exact h0 h2
          exact ⟨p, hp', (improves_congr (w + p.2.1)
            (relaxCore_lookup_ne hne)).mp himp⟩
        · rintro ⟨p, hp', himp⟩
          have hne : p.1 ≠ d0 := by
            intro h1
            have h2 := key_mem_of_mem hp'
            rw [h1] at h2
            exact h0 h2
          exact ⟨p, hp', (improves_congr (w + p.2.1)
            (relaxCore_lookup_ne hne)).mpr himp⟩
      rw [IH3, hEx, Bool.or_eq_true, relaxCore_flag_iff,
        exists_mem_cons (fun p => Improves t p.1 (w + p.2.1)) (d0, e0) rest, or_assoc]

/-- C3: a relaxation call against a neighbor table with distinct destinations
rewrites each advertised destination `dest` to
`(neighbors[neighbor_id] + dest_cost, neighbor_id)` exactly when `dest` has no
existing entry or the candidate is strictly cheaper; otherwise (ties included)
the existing entry is kept, cost and next hop, and untouched destinations are
unchanged; the `modified` flag is reported exactly when some advertised
destination satisfies the update condition. -/
theorem C3_relaxation_spec (r : Router) (nn : RId) (nt : Table) (w : ℤ)
    (hw : lookup nn r.neighbors = some w) (hnod : keysNodup nt) :
    ∃ r' m, r.update_routing_table nn nt = some (r', m) ∧
      r'.name = r.name ∧ r'.neighbors = r.neighbors ∧
      (∀ d, (∀ e, (d, e) ∉ nt) → lookup d r'.routing_table = lookup d r.routing_table) ∧
      (∀ p ∈ nt,
        (Improves r.routing_table p.1 (w + p.2.1) →
          lookup p.1 r'.routing_table = some (w + p.2.1, nn)) ∧
        (¬ Improves r.routing_table p.1 (w + p.2.1) →
          lookup p.1 r'.routing_table = lookup p.1 r.routing_table)) ∧
      (m = true ↔ ∃ p ∈ nt, Improves r.routing_table p.1 (w + p.2.1)) := by
  obtain ⟨G1, G2, G3⟩ := relaxFold_spec w nn nt r.routing_table false hnod
  refine ⟨_, _, update_routing_table_eq r nn nt w hw, rfl, rfl, G1, G2, ?_⟩
  rw [G3]
  simp

/-- Witness for C3 at a concrete call: relaxing router A against an advertised
table holding one new destination succeeds and reports a change exactly when
the update condition holds there. -/
theorem C3_witness :
    ∃ r' m,
      Router.update_routing_table
        ⟨"A", [("B", 2)], [("B", (2, "B")), ("A", (0, "A"))]⟩ "B" [("C", (1, "C"))]
        = some (r', m) ∧
      (m = true ↔ ∃ p ∈ [("C", ((1 : ℤ), "C"))],
        Improves [("B", (2, "B")), ("A", (0, "A"))] p.1 (2 + p.2.1)) := by
  obtain ⟨r', m, h1, -, -, -, -, h6⟩ := C3_relaxation_spec
    ⟨"A", [("B", 2)], [("B", (2, "B")), ("A", (0, "A"))]⟩ "B" [("C", (1, "C"))] 2
    (by decide) (by decide)
  exact ⟨r', m, h1, h6⟩

/-! ### Walks in the topology -/

theorem pathTarget_cons (u v : RId) (l : List RId) :
    pathTarget u (v :: l) = pathTarget v l := rfl

theorem pathCost_nil (net : Network) (u : RId) : pathCost net u [] = some 0 := rfl

theorem pathCost_cons_eq {net : Network} {u v : RId} {l : List RId} {w c : ℤ}
    (he : edgeCost net u v = some w) (hc : pathCost net v l = some c) :
    pathCost net u (v :: l) = some (w + c) := by
  simp [pathCost, he, hc]

theorem pathCost_cons_elim {net : Network} {u v : RId} {l : List RId} {c : ℤ}
    (h : pathCost net u (v :: l) = some c) :
    ∃ w c', edgeCost net u v = some w ∧ pathCost net v l = some c' ∧ c = w + c' := by
  cases he : edgeCost net u v with
  | none => simp [pathCost, he] at h
  | some w =>
    cases hc : pathCost net v l with
    | none => simp [pathCost, he, hc] at h
    | some c' =>
      simp only [pathCost, he, hc] at h
      injection h with h
      exact ⟨w, c', rfl, rfl, h.symm⟩

theorem edgeCost_intro {net : Network} {u : RId} {r : Router}
    (hr : lookup u net.routers = some r) (v : RId) :
    edgeCost net u v = lookup v r.neighbors := by
  simp [edgeCost, hr]

theorem edgeCost_elim {net : Network} {u v : RId} {w : ℤ}
    (h : edgeCost net u v = some w) :
    ∃ r, lookup u net.routers = some r ∧ lookup v r.neighbors = some w := by
  cases hr : lookup u net.routers with
  | none => simp [edgeCost, hr] at h
  | some r =>
    rw [edgeCost_intro hr] at h
    exact ⟨r, rfl, h⟩

theorem edgeCost_congr {n1 n2 : Network} {u : RId}
    (h : lookup u n1.routers = lookup u n2.routers) (v : RId) :
    edgeCost n1 u v = edgeCost n2 u v := by
  unfold edgeCost
  rw [h]

/-! ### The network invariant carried through the simulation -/

/-- Per-router invariant, with walks measured in the reference topology `T`
(the simulation never changes the topology, so `T` stays the initial network):
dict keys are distinct, neighbor costs are non-negative and point to existing
routers, a router with no neighbors still has its empty initial table, a
router with neighbors has the self route, all table costs are non-negative,
the entry for each direct neighbor costs at most the link, and every non-self
entry `(c, nh)` is realized by an actual walk that starts with the hop to `nh`
and costs exactly `c`. -/
structure RouterInv (T net : Network) (r : Router) : Prop where
  nbrs_nodup : keysNodup r.neighbors
  tab_nodup : keysNodup r.routing_table
  nbrs_nonneg : ∀ p ∈ r.neighbors, (0 : ℤ) ≤ p.2
  closed : ∀ p ∈ r.neighbors, ∃ x, lookup p.1 net.routers = some x
  empty_tab : r.neighbors = [] → r.routing_table = []
  self_mem : r.neighbors ≠ [] → lookup r.name r.routing_table = some (0, r.name)
  tab_nonneg : ∀ d e, lookup d r.routing_table = some e → 0 ≤ e.1
  nbr_ent : ∀ p ∈ r.neighbors, ∃ e, lookup p.1 r.routing_table = some e ∧ e.1 ≤ p.2
  realiz : ∀ d e, lookup d r.routing_table = some e → d ≠ r.name →
    ∃ l, pathTarget r.name (e.2 :: l) = d ∧ pathCost T r.name (e.2 :: l) = some e.1

/-- Whole-network invariant: the topology agrees with the reference `T`,
router keys are distinct, every stored router carries its key as name and
satisfies `RouterInv`. -/
structure NetInv (T net : Network) : Prop where
  eqtopo : ∀ u v, edgeCost T u v = edgeCost net u v
  rnodup : keysNodup net.routers
  ok : ∀ rid r, lookup rid net.routers = some r → r.name = rid ∧ RouterInv T net r

/-- Well-formedness of a network taken as its own topology reference. -/
def NetWF (net : Network) : Prop := NetInv net net

theorem RouterInv.self_val {T net : Network} {r : Router} (h : RouterInv T net r)
    {e : Entry} (he : lookup r.name r.routing_table = some e) : e = (0, r.name) := by
  have hne : r.neighbors ≠ [] := by
    intro h0
    rw [h.empty_tab h0] at he
    simp [lookup] at he
  rw [h.self_mem hne] at he
  exact (Option.some.inj he).symm

theorem routerInv_mono_net {T net net' : Network} {r : Router} (h : RouterInv T net r)
    (hkeys : ∀ k x, lookup k net.routers = some x → ∃ y, lookup k net'.routers = some y) :
    RouterInv T net' r := by
  refine ⟨h.nbrs_nodup, h.tab_nodup, h.nbrs_nonneg, ?_, h.empty_tab, h.self_mem,
    h.tab_nonneg, h.nbr_ent, h.realiz⟩
  intro p hp
  obtain ⟨x, hx⟩ := h.closed p hp
  exact hkeys p.1 x hx

theorem netInv_setKey {T net : Network} {rid : RId} {cur cur' : Router}
    (hT : NetInv T net) (hcur : lookup rid net.routers = some cur)
    (hname : cur'.name = cur.name) (hnbrs : cur'.neighbors = cur.neighbors)
    (hinv : RouterInv T net cur') :
    NetInv T ⟨setKey rid cur' net.routers⟩ := by
  have hkeys : ∀ k x, lookup k net.routers = some x →
      ∃ y, lookup k (setKey rid cur' net.routers) = some y :=
    fun k x hx => lookup_setKey_isSome ⟨x, hx⟩
  refine ⟨?_, keysNodup_setKey hT.rnodup, ?_⟩
  · intro u v
    rw [hT.eqtopo u v]
    by_cases hu : u = rid
    · subst hu
      have h1 : lookup u (setKey u cur' net.routers) = some cur' :=
        lookup_setKey_self u cur' net.routers
      rw [edgeCost_intro hcur v,
        @edgeCost_intro ⟨setKey u cur' net.routers⟩ u cur' h1 v, hnbrs]
    · exact edgeCost_congr ((lookup_setKey_ne hu cur' net.routers).symm :
        lookup u net.routers = lookup u (setKey rid cur' net.routers)) v
  · intro x rx hx
    have hx' : lookup x (setKey rid cur' net.routers) = some rx := hx
    by_cases hxr : x = rid
    · subst hxr
      rw [lookup_setKey_self] at hx'
      injection hx' with hx'
      subst hx'
      exact ⟨hname.trans (hT.ok x cur hcur).1, routerInv_mono_net hinv hkeys⟩
    · rw [lookup_setKey_ne hxr] at hx'
      obtain ⟨hn, hi⟩ := hT.ok x rx hx'
      exact ⟨hn, routerInv_mono_net hi hkeys⟩

/-- One relaxation call preserves the per-router invariant: every new or
rewritten entry is realized by a genuine walk through the advertising
neighbor, the self route survives because candidates are non-negative, and
neighbor entries only improve. -/
theorem update_routerInv {T net : Network} {cur nb cur' : Router} {nid : RId} {m : Bool}
    (hT : NetInv T net)
    (hcur : lookup cur.name net.routers = some cur)
    (hnb : lookup nid net.routers = some nb)
    (hupd : cur.update_routing_table nid nb.routing_table = some (cur', m)) :
    cur'.name = cur.name ∧ cur'.neighbors = cur.neighbors ∧ RouterInv T net cur' := by
  obtain ⟨w, hw⟩ := update_isSome hupd
  rw [update_routing_table_eq cur nid nb.routing_table w hw] at hupd
  injection hupd with h1
  rw [Prod.mk.injEq] at h1
  obtain ⟨h2, -⟩ := h1
  have Icur : RouterInv T net cur := (hT.ok cur.name cur hcur).2
  obtain ⟨hnbname, Inb⟩ := hT.ok nid nb hnb
  have hw0 : (0 : ℤ) ≤ w := Icur.nbrs_nonneg (nid, w) (mem_of_lookup hw)
  have hne : cur.neighbors ≠ [] := List.ne_nil_of_mem (mem_of_lookup hw)
  have hedge : edgeCost T cur.name nid = some w := by
    rw [hT.eqtopo, edgeCost_intro hcur]
    exact hw
  have hstep : ∀ (t : Table) (p : RId × Entry), p ∈ nb.routing_table →
      (keysNodup t ∧ lookup cur.name t = some (0, cur.name) ∧
        (∀ d e, lookup d t = some e → 0 ≤ e.1) ∧
        (∀ q ∈ cur.neighbors, ∃ e, lookup q.1 t = some e ∧ e.1 ≤ q.2) ∧
        (∀ d e, lookup d t = some e → d ≠ cur.name →
          ∃ l, pathTarget cur.name (e.2 :: l) = d ∧
            pathCost T cur.name (e.2 :: l) = some e.1)) →
      (keysNodup (relaxCore w nid t p).1 ∧
        lookup cur.name (relaxCore w nid t p).1 = some (0, cur.name) ∧
        (∀ d e, lookup d (relaxCore w nid t p).1 = some e → 0 ≤ e.1) ∧
        (∀ q ∈ cur.neighbors, ∃ e, lookup q.1 (relaxCore w nid t p).1 = some e ∧
          e.1 ≤ q.2) ∧
        (∀ d e, lookup d (relaxCore w nid t p).1 = some e → d ≠ cur.name →
          ∃ l, pathTarget cur.name (e.2 :: l) = d ∧
            pathCost T cur.name (e.2 :: l) = some e.1)) := by
    intro t p hp hPt
    obtain ⟨ht1, ht2, ht3, ht4, ht5⟩ := hPt
    have hlookp : lookup p.1 nb.routing_table = some p.2 :=
      lookup_of_mem_nodup Inb.tab_nodup hp
    have hp_nonneg : (0 : ℤ) ≤ p.2.1 := Inb.tab_nonneg p.1 p.2 hlookp
    have hcand : (0 : ℤ) ≤ w + p.2.1 := add_nonneg hw0 hp_nonneg
    by_cases himp : Improves t p.1 (w + p.2.1)
    · have hfst : (relaxCore w nid t p).1 = setKey p.1 (w + p.2.1, nid) t := by
        rw [relaxCore_eq_of_improves himp]
      have hpne_self : p.1 ≠ cur.name := by
        intro h3
        rcases himp with hnone | ⟨e, he, hlt⟩
        · rw [h3, ht2] at hnone
          exact Option.noConfusion hnone
        · rw [h3, ht2] at he
          injection he with he
          rw [← he] at hlt
          omega
      rw [hfst]
      refine ⟨keysNodup_setKey ht1, ?_, ?_, ?_, ?_⟩
      · rw [lookup_setKey_ne (Ne.symm hpne_self)]
        exact ht2
      · intro d e hde
        by_cases hdp : d = p.1
        · subst hdp
          rw [lookup_setKey_self] at hde
          injection hde with hde
          rw [← hde]
          exact hcand
        · rw [lookup_setKey_ne hdp] at hde
          exact ht3 d e hde
      · intro q hq
        obtain ⟨e, he, hle⟩ := ht4 q hq
        by_cases hqp : q.1 = p.1
        · refine ⟨(w + p.2.1, nid), by rw [hqp, lookup_setKey_self], ?_⟩
          rcases himp with hnone | ⟨e', he', hlt⟩
          · rw [← hqp, he] at hnone
            exact Option.noConfusion hnone
          · rw [← hqp, he] at he'
            injection he' with he'
            rw [← he'] at hlt
            exact le_trans (le_of_lt hlt) hle
        · rw [lookup_setKey_ne hqp]
          exact ⟨e, he, hle⟩
      · intro d e hde hdne
        by_cases hdp : d = p.1
        · subst hdp
          rw [lookup_setKey_self] at hde
          injection hde with hde
          subst hde
          by_cases hpn : p.1 = nid
          · have hself : p.2 = (0, nb.name) := by
              apply Inb.self_val
              rw [hnbname, ← hpn]
              exact hlookp
            refine ⟨[], by rw [pathTarget_cons]; exact hpn.symm, ?_⟩
            rw [pathCost_cons_eq hedge (pathCost_nil T nid),
              show p.2.1 = 0 from by rw [hself]]
          · have hsrc := Inb.realiz p.1 p.2 hlookp (by rw [hnbname]; exact hpn)
            rw [hnbname] at hsrc
            obtain ⟨l0, hl0t, hl0c⟩ := hsrc
            refine ⟨p.2.2 :: l0, ?_, ?_⟩
            · rw [pathTarget_cons]
              exact hl0t
            · exact pathCost_cons_eq hedge hl0c
        · rw [lookup_setKey_ne hdp] at hde
          exact ht5 d e hde hdne
    · rw [show (relaxCore w nid t p).1 = t from by
        rw [relaxCore_eq_of_not_improves himp]]
      exact ⟨ht1, ht2, ht3, ht4, ht5⟩
  have hPfold := foldl_preserve
    (fun (s : Table × Bool) => keysNodup s.1 ∧ lookup cur.name s.1 = some (0, cur.name) ∧
      (∀ d e, lookup d s.1 = some e → 0 ≤ e.1) ∧
      (∀ q ∈ cur.neighbors, ∃ e, lookup q.1 s.1 = some e ∧ e.1 ≤ q.2) ∧
      (∀ d e, lookup d s.1 = some e → d ≠ cur.name →
        ∃ l, pathTarget cur.name (e.2 :: l) = d ∧
          pathCost T cur.name (e.2 :: l) = some e.1))
    nb.routing_table (foldStep (relaxCore w nid))
    (fun s x hx hs => hstep s.1 x hx hs)
    (cur.routing_table, false)
    ⟨Icur.tab_nodup, Icur.self_mem hne, Icur.tab_nonneg, Icur.nbr_ent, Icur.realiz⟩
  obtain ⟨hf1, hf2, hf3, hf4, hf5⟩ := hPfold
  rw [← h2]
  refine ⟨rfl, rfl, ?_⟩
  exact ⟨Icur.nbrs_nodup, hf1, Icur.nbrs_nonneg, Icur.closed,
    fun h0 => absurd h0 hne, fun _ => hf2, hf3, hf4, hf5⟩

theorem relaxOne_netInv {T net : Network} (hT : NetInv T net) (rid nid : RId) :
    NetInv T (relaxOne net rid nid).1 := by
  cases hcur : lookup rid net.routers with
  | none => simp only [relaxOne, hcur]; exact hT
  | some cur =>
    cases hnb : lookup nid net.routers with
    | none => simp only [relaxOne, hcur, hnb]; exact hT
    | some nb =>
      cases hupd : cur.update_routing_table nid nb.routing_table with
      | none => simp only [relaxOne, hcur, hnb, hupd]; exact hT
      | some p =>
        obtain ⟨cur', m⟩ := p
        simp only [relaxOne, hcur, hnb, hupd]
        have hname : cur.name = rid := (hT.ok rid cur hcur).1
        have hcur' : lookup cur.name net.routers = some cur := by
          rw [hname]
          exact hcur
        obtain ⟨h1, h2, h3⟩ := update_routerInv hT hcur' hnb hupd
        exact netInv_setKey hT hcur h1 h2 h3

theorem processRouter_netInv {T net : Network} (hT : NetInv T net) (rid : RId) :
    NetInv T (processRouter net rid).1 := by
  cases hr : lookup rid net.routers with
  | none => simp only [processRouter, hr]; exact hT
  | some r =>
    simp only [processRouter, hr]
    refine foldl_preserve (fun s => NetInv T s.1) r.neighbors _ ?_ (net, false) hT
    intro s x _ hs
    exact relaxOne_netInv hs rid x.1

theorem run_round_netInv {T net : Network} (hT : NetInv T net) :
    NetInv T (run_round net).1 := by
  simp only [run_round]
  refine foldl_preserve (fun s => NetInv T s.1) (net.routers.map Prod.fst) _ ?_
    (net, false) hT
  intro s x _ hs
  exact processRouter_netInv hs x

theorem simulate_netInv {T : Network} (f : Nat) :
    ∀ net : Network, NetInv T net → NetInv T (net.simulate f).1 := by
  induction f with
  | zero => intro net hT; exact hT
  | succ f ih =>
    intro net hT
    cases hrr : (run_round net).2 with
    | true =>
      rw [simulate_succ_true net f hrr]
      exact ih (run_round net).1 (run_round_netInv hT)
    | false =>
      rw [simulate_succ_false net f hrr]
      exact run_round_netInv hT

/-- If the simulation reports convergence, the final state is a fixed point of
the round function. -/
theorem simulate_converged_fix (f : Nat) :
    ∀ net : Network, (net.simulate f).2.2 = Status.CONVERGED →
      run_round (net.simulate f).1 = ((net.simulate f).1, false) := by
  induction f with
  | zero =>
    intro net h
    exact absurd h (by rw [simulate_zero]; exact fun h1 => Status.noConfusion h1)
  | succ f ih =>
    intro net h
    cases hrr : (run_round net).2 with
    | true =>
      rw [simulate_succ_true net f hrr] at h ⊢
      exact ih (run_round net).1 h
    | false =>
      rw [simulate_succ_false net f hrr] at h ⊢
      have h1 := run_round_false hrr
      show run_round (run_round net).1 = ((run_round net).1, false)
      rw [h1]
      exact Prod.ext_iff.mpr ⟨h1, hrr⟩

/-! ### The converged fixed point computes shortest paths -/

/-- At a fixed point of the round function no relaxation can improve: for
every router, each destination advertised by each neighbor is already present
with a cost at most the candidate through that neighbor. -/
def NoImprove (net : Network) : Prop :=
  ∀ rid r, lookup rid net.routers = some r → ∀ p ∈ r.neighbors,
    ∀ nb, lookup p.1 net.routers = some nb → ∀ q ∈ nb.routing_table,
      ∃ e, lookup q.1 r.routing_table = some e ∧ e.1 ≤ p.2 + q.2.1

theorem relaxCore_false_elim {w : ℤ} {nn : RId} {t : Table} {p : RId × Entry}
    (h : (relaxCore w nn t p).2 = false) :
    ∃ e, lookup p.1 t = some e ∧ e.1 ≤ w + p.2.1 := by
  by_cases himp : Improves t p.1 (w + p.2.1)
  · rw [relaxCore_eq_of_improves himp] at h
    exact absurd h (by simp)
  · cases hl : lookup p.1 t with
    | none => exact absurd (Or.inl hl) himp
    | some e =>
      have hge : ¬ w + p.2.1 < e.1 := fun hlt => himp (Or.inr ⟨e, hl, hlt⟩)
      exact ⟨e, rfl, le_of_not_lt hge⟩

theorem noimprove_of_fix {T net : Network} (hT : NetInv T net)
    (hfix : run_round net = (net, false)) : NoImprove net := by
  have hflag : (run_round net).2 = false := by rw [hfix]
  simp only [run_round] at hflag
  obtain ⟨-, hall⟩ := foldl_foldStep_false processRouter
    (fun _ _ hsx => processRouter_false hsx) (net.routers.map Prod.fst) net hflag
  intro rid r hr p hp nb hnb q hq
  have hrid_mem : rid ∈ net.routers.map Prod.fst :=
    @key_mem_of_mem Router (rid, r) net.routers (mem_of_lookup hr)
  have h1 : (processRouter net rid).2 = false := hall rid hrid_mem
  rw [show processRouter net rid =
      r.neighbors.foldl (foldStep fun net' p' => relaxOne net' rid p'.1) (net, false) from by
    simp [processRouter, hr]] at h1
  obtain ⟨-, hall2⟩ := foldl_foldStep_false (fun net' p' => relaxOne net' rid p'.1)
    (fun _ _ hsx => relaxOne_false hsx) r.neighbors net h1
  have h2 : (relaxOne net rid p.1).2 = false := hall2 p hp
  have hw : lookup p.1 r.neighbors = some p.2 :=
    lookup_of_mem_nodup (hT.ok rid r hr).2.nbrs_nodup hp
  have hupd := update_routing_table_eq r p.1 nb.routing_table p.2 hw
  rw [show relaxOne net rid p.1 =
      (⟨setKey rid { r with routing_table :=
        (nb.routing_table.foldl (foldStep (relaxCore p.2 p.1)) (r.routing_table, false)).1 }
        net.routers⟩,
       (nb.routing_table.foldl (foldStep (relaxCore p.2 p.1)) (r.routing_table, false)).2)
      from by simp [relaxOne, hr, hnb, hupd]] at h2
  obtain ⟨-, hall3⟩ := foldl_foldStep_false (relaxCore p.2 p.1)
    (fun _ _ hsx => relaxCore_false hsx) nb.routing_table r.routing_table h2
  exact relaxCore_false_elim (hall3 q hq)

theorem pathCost_nonneg {T net : Network} (hT : NetInv T net) :
    ∀ (l : List RId) (u : RId) (c : ℤ), pathCost T u l = some c → 0 ≤ c := by
  intro l
  induction l with
  | nil =>
    intro u c h
    rw [pathCost_nil] at h
    injection h with h
    rw [← h]
  | cons v l ih =>
    intro u c h
    obtain ⟨w, c', he, hc, rfl⟩ := pathCost_cons_elim h
    rw [hT.eqtopo] at he
    obtain ⟨r, hr, hvr⟩ := edgeCost_elim he
    have hw0 : (0 : ℤ) ≤ w := (hT.ok u r hr).2.nbrs_nonneg (v, w) (mem_of_lookup hvr)
    have hc0 := ih v c' hc
    omega

/-- At a fixed point, every walk from a stored router to any target is at
least as expensive as the router's table entry for that target — in
particular the entry exists. -/
theorem fixed_upper {T net : Network} (hT : NetInv T net) (hni : NoImprove net) :
    ∀ (l : List RId) (rid : RId) (r : Router) (n : RId) (c : ℤ),
      lookup rid net.routers = some r → pathCost T rid (n :: l) = some c →
      ∃ e, lookup (pathTarget rid (n :: l)) r.routing_table = some e ∧ e.1 ≤ c := by
  intro l
  induction l with
  | nil =>
    intro rid r n c hr hc
    obtain ⟨w, c', he, hc', rfl⟩ := pathCost_cons_elim hc
    rw [pathCost_nil] at hc'
    injection hc' with hc'
    rw [hT.eqtopo] at he
    obtain ⟨r0, hr0, hvr⟩ := edgeCost_elim he
    rw [hr] at hr0
    injection hr0 with hr0
    rw [← hr0] at hvr
    obtain ⟨e, he2, hle⟩ := (hT.ok rid r hr).2.nbr_ent (n, w) (mem_of_lookup hvr)
    refine ⟨e, he2, ?_⟩
    omega
  | cons n' l ih =>
    intro rid r n c hr hc
    obtain ⟨w, c', he, hc', rfl⟩ := pathCost_cons_elim hc
    rw [hT.eqtopo] at he
    obtain ⟨r0, hr0, hvr⟩ := edgeCost_elim he
    rw [hr] at hr0
    injection hr0 with hr0
    rw [← hr0] at hvr
    obtain ⟨nb, hnb⟩ := (hT.ok rid r hr).2.closed (n, w) (mem_of_lookup hvr)
    obtain ⟨e', he', hle'⟩ := ih n nb n' c' hnb hc'
    obtain ⟨e, he2, hle2⟩ := hni rid r hr (n, w) (mem_of_lookup hvr) nb hnb
      (pathTarget n (n' :: l), e') (mem_of_lookup he')
    refine ⟨e, he2, ?_⟩
    have h3 : e.1 ≤ w + e'.1 := hle2
    omega

/-- C1 (amended): if a well-formed static topology with non-negative link
costs converges, then every stored router's table maps each destination
reachable from it, other than itself, to the true shortest-path cost and to a
next hop beginning a walk that realizes that optimal cost; the router itself
carries the entry `(0, self)` with the optimal cost 0 whenever it has at
least one neighbor, while a router with no neighbors keeps an empty table
even though it trivially reaches itself. -/
theorem C1_converged_shortest (net : Network) (f : Nat) (hwf : NetWF net)
    (hconv : (net.simulate f).2.2 = Status.CONVERGED) :
    ∀ rid r, lookup rid (net.simulate f).1.routers = some r →
      (∀ d c', d ≠ rid → Reaches net rid d c' →
        ∃ c nh, lookup d r.routing_table = some (c, nh) ∧
          IsShortestCost net rid d c ∧
          ∃ l, pathTarget rid (nh :: l) = d ∧ pathCost net rid (nh :: l) = some c) ∧
      (r.neighbors ≠ [] → lookup rid r.routing_table = some (0, rid) ∧
        IsShortestCost net rid rid 0) := by
  have hinv : NetInv net (net.simulate f).1 := simulate_netInv f net hwf
  have hfix := simulate_converged_fix f net hconv
  have hni : NoImprove (net.simulate f).1 := noimprove_of_fix hinv hfix
  intro rid r hr
  have hname : r.name = rid := (hinv.ok rid r hr).1
  have Ir : RouterInv net (net.simulate f).1 r := (hinv.ok rid r hr).2
  constructor
  · intro d c' hdne hre
    obtain ⟨l, hlt, hlc⟩ := hre
    cases l with
    | nil => exact absurd (hlt : rid = d).symm hdne
    | cons n l' =>
      obtain ⟨e, he, hle⟩ := fixed_upper hinv hni l' rid r n c' hr hlc
      rw [hlt] at he
      obtain ⟨l0, hl0t, hl0c⟩ := Ir.realiz d e he (by rw [hname]; exact hdne)
      rw [hname] at hl0t hl0c
      have hmin : ∀ c'', Reaches net rid d c'' → e.1 ≤ c'' := by
        intro c'' hre2
        obtain ⟨l2, hl2t, hl2c⟩ := hre2
        cases l2 with
        | nil => exact absurd (hl2t : rid = d).symm hdne
        | cons n2 l2' =>
          obtain ⟨e2, he22, hle22⟩ := fixed_upper hinv hni l2' rid r n2 c'' hr hl2c
          rw [hl2t, he] at he22
          injection he22 with he22
          rw [he22]
          exact hle22
      exact ⟨e.1, e.2, he, ⟨⟨e.2 :: l0, hl0t, hl0c⟩, hmin⟩, ⟨l0, hl0t, hl0c⟩⟩
  · intro hne
    have hself := Ir.self_mem hne
    rw [hname] at hself
    refine ⟨hself, ⟨[], rfl, rfl⟩, ?_⟩
    intro c' hre
    obtain ⟨l2, -, hl2c⟩ := hre
    exact pathCost_nonneg hinv l2 rid c' hl2c

/-- C1 counterexample: a network holding a single isolated router converges
(status `CONVERGED`) with an empty routing table, yet that router is a
reachable destination of itself (the empty walk, distance 0), so the final
table does not map every reachable destination. -/
theorem C1_isolated_cex :
    (netSolo.simulate 100).2.2 = Status.CONVERGED ∧
    Reaches netSolo "A" "A" 0 ∧
    ((lookup "A" (netSolo.simulate 100).1.routers).bind
      (fun r => lookup "A" r.routing_table)) = none :=
  ⟨by decide, ⟨[], rfl, rfl⟩, by decide⟩

/-- The two-router example network is well formed. -/
theorem netAB_wf : NetWF netAB := by
  have hAB : netAB.routers =
      [("A", ⟨"A", [("B", 2)], [("B", (2, "B")), ("A", (0, "A"))]⟩),
       ("B", ⟨"B", [("A", 2)], [("A", (2, "A")), ("B", (0, "B"))]⟩)] := by decide
  refine ⟨fun u v => rfl, by decide, ?_⟩
  intro rid r h
  rw [hAB] at h
  simp only [lookup] at h
  split_ifs at h with h1 h2
  · injection h with h
    subst h
    subst h1
    refine ⟨rfl, ?_⟩
    refine ⟨by decide, by decide, ?_, ?_, ?_, ?_, ?_, ?_, ?_⟩
    · intro p hp
      simp only [List.mem_singleton] at hp
      subst hp
      decide
    · intro p hp
      simp only [List.mem_singleton] at hp
      subst hp
      exact ⟨⟨"B", [("A", 2)], [("A", (2, "A")), ("B", (0, "B"))]⟩, by decide⟩
    · intro h0
      simp at h0
    · intro _
      decide
    · intro d e hde
      simp only [lookup] at hde
      split_ifs at hde with hd1 hd2
      · injection hde with hde
        subst hde
        decide
      · injection hde with hde
        subst hde
        decide
    · intro p hp
      simp only [List.mem_singleton] at hp
      subst hp
      exact ⟨(2, "B"), by decide, by decide⟩
    · intro d e hde hdne
      simp only [lookup] at hde
      split_ifs at hde with hd1 hd2
      · injection hde with hde
        subst hde
        subst hd1
        exact ⟨[], by decide, by decide⟩
  · injection h with h
    subst h
    subst h2
    refine ⟨rfl, ?_⟩
    refine ⟨by decide, by decide, ?_, ?_, ?_, ?_, ?_, ?_, ?_⟩
    · intro p hp
      simp only [List.mem_singleton] at hp
      subst hp
      decide
    · intro p hp
      simp only [List.mem_singleton] at hp
      subst hp
      exact ⟨⟨"A", [("B", 2)], [("B", (2, "B")), ("A", (0, "A"))]⟩, by decide⟩
    · intro h0
      simp at h0
    · intro _
      decide
    · intro d e hde
      simp only [lookup] at hde
      split_ifs at hde with hd1 hd2
      · injection hde with hde
        subst hde
        decide
      · injection hde with hde
        subst hde
        decide
    · intro p hp
      simp only [List.mem_singleton] at hp
      subst hp
      exact ⟨(2, "A"), by decide, by decide⟩
    · intro d e hde hdne
      simp only [lookup] at hde
      split_ifs at hde with hd1 hd2
      · injection hde with hde
        subst hde
        subst hd1
        exact ⟨[], by decide, by decide⟩

/-- Witness for C1: the two-router network converges, and its converged entry
for B at router A carries the true shortest-path cost 2 with a next hop that
starts an optimal walk. -/
theorem C1_witness :
    ∃ r, lookup "A" (netAB.simulate 100).1.routers = some r ∧
      ∃ c nh, lookup "B" r.routing_table = some (c, nh) ∧
        IsShortestCost netAB "A" "B" c ∧
        ∃ l, pathTarget "A" (nh :: l) = "B" ∧ pathCost netAB "A" (nh :: l) = some c := by
  have hr : lookup "A" (netAB.simulate 100).1.routers =
      some ⟨"A", [("B", 2)], [("B", (2, "B")), ("A", (0, "A"))]⟩ := by decide
  obtain ⟨h1, -⟩ := C1_converged_shortest netAB 100 netAB_wf (by decide) "A" _ hr
  obtain ⟨c, nh, hc1, hc2, hc3⟩ := h1 "B" 2 (by decide) ⟨["B"], by decide, by decide⟩
  exact ⟨_, hr, c, nh, hc1, hc2, hc3⟩

end DVR
